import Mathlib

/-!
Verification development for the fetch-vault core (src/src-tauri/src).

The Rust source is shallowly embedded. Design decisions of the embedding:

* AES-256-GCM ciphertexts are symbolic values `Ct` recording the key that
  produced them, the 12-byte nonce that the code draws from the OS RNG and
  prepends, and the plaintext.  `decrypt` under a key succeeds exactly when
  the value was produced under the same key, mirroring authenticated
  encryption; any mismatch is a `Decryption` failure.
* Derived keys are symbolic values `DKey` recording (password, salt,
  strength); constructor injectivity models collision-free Argon2id.
* The OS RNG nonce stream is an explicit `List (List Nat)` in the vault
  state: each encryption pops the next 12-byte nonce.  Fresh 16-byte salts
  and 32-byte verification tokens are drawn from a `fresh` counter.
* Byte strings are `List Nat` with each element a byte value.
-/

/-- Argon2 strength profiles (`KeyDerivationStrength` in crypto.rs). -/
inductive Strength where
  | fast
  | recommended
  | paranoid
deriving DecidableEq, Repr

/-- Argon2 parameter set produced by `KeyDerivationStrength::get_params`. -/
structure Argon2Params where
  mCost : Nat
  tCost : Nat
  pCost : Nat
  outputLen : Nat
deriving DecidableEq, Repr

/-- Exact parameter values from `get_params` in crypto.rs. -/
def getParams : Strength → Argon2Params
  | .fast => ⟨256 * 1024, 2, 2, 32⟩
  | .recommended => ⟨512 * 1024, 3, 4, 32⟩
  | .paranoid => ⟨1024 * 1024, 4, 4, 32⟩

/-- Argon2 version constant `V0x13` (version 1.3) used in `derive_key`. -/
def argon2Version : Nat := 19

/-- Error taxonomy of error.rs, restricted to the variants these proofs
touch; message payloads are dropped except the id in `itemNotFound`. -/
inductive Err where
  | ioError
  | cryptoErr
  | storageErr
  | itemNotFound (id : String)
  | serializationErr
  | keyDerivationErr
  | encryptionErr
  | decryptionErr
  | vaultLocked
  | invalidMasterKey
  | vaultAlreadyInit
  | invalidInput
  | internalErr
deriving DecidableEq, Repr

/-- Decidable equality on `Except` results, so that concrete runs of the
embedded operations can be checked by `decide`. -/
instance {ε α : Type} [DecidableEq ε] [DecidableEq α] :
    DecidableEq (Except ε α) := fun a b =>
  match a, b with
  | .ok x, .ok y =>
      if h : x = y then .isTrue (congrArg Except.ok h)
      else .isFalse (fun hc => h (Except.ok.inj hc))
  | .error x, .error y =>
      if h : x = y then .isTrue (congrArg Except.error h)
      else .isFalse (fun hc => h (Except.error.inj hc))
  | .ok _, .error _ => .isFalse (fun hc => Except.noConfusion hc)
  | .error _, .ok _ => .isFalse (fun hc => Except.noConfusion hc)

/-- The standard base64 alphabet as byte values, `A-Z a-z 0-9 + /`. -/
def b64Alphabet : List Nat :=
  (List.range 26).map (· + 65) ++ (List.range 26).map (· + 97) ++
    (List.range 10).map (· + 48) ++ [43, 47]

/-- Value of a base64 digit. -/
def b64Char (n : Nat) : Nat := b64Alphabet.getD n 65

/-- Unpadded standard base64 of a byte list: the encoding performed by
`password_hash::SaltString::encode_b64` (B64 of the PHC string format,
which is standard base64 without `=` padding). -/
def b64EncodeBytes : List Nat → List Nat
  | [] => []
  | [b1] => [b64Char (b1 / 4), b64Char (b1 % 4 * 16)]
  | [b1, b2] =>
      [b64Char (b1 / 4), b64Char (b1 % 4 * 16 + b2 / 16), b64Char (b2 % 16 * 4)]
  | b1 :: b2 :: b3 :: rest =>
      b64Char (b1 / 4) :: b64Char (b1 % 4 * 16 + b2 / 16) ::
        b64Char (b2 % 16 * 4 + b3 / 64) :: b64Char (b3 % 64) :: b64EncodeBytes rest

/-- `SaltString::encode_b64` fails when the encoded form exceeds the 64-byte
salt buffer, i.e. for inputs longer than 48 bytes; otherwise it returns the
unpadded base64 encoding.  `derive_key` maps that failure to
`Error::KeyDerivation`. -/
def encodeB64Salt (salt : List Nat) : Except Err (List Nat) :=
  if 48 < salt.length then .error .keyDerivationErr
  else .ok (b64EncodeBytes salt)

/-- Shallow embedding of `Crypto::derive_key` (crypto.rs lines 70-90),
parametric over the Argon2 core `a2` (the external `argon2` crate's
`hash_password_into`, taking version, parameters, password bytes, and salt
bytes).  The embedding records exactly which salt bytes reach the KDF: the
code first rewrites the salt through `SaltString::encode_b64` and then
passes `salt.as_str().as_bytes()` — the base64 text — to Argon2id. -/
def deriveKey (a2 : Nat → Argon2Params → List Nat → List Nat → List Nat)
    (password : List Nat) (salt : List Nat) (strength : Strength) :
    Except Err (List Nat) :=
  match encodeB64Salt salt with
  | .error e => .error e
  | .ok saltText => .ok (a2 argon2Version (getParams strength) password saltText)

/-- A symbolic derived key: the output of Argon2id over (password, salt,
strength).  Salts are identified by the counter value that generated them.
Constructor injectivity models a collision-free KDF. -/
structure DKey where
  password : String
  salt : Nat
  strength : Strength
deriving DecidableEq, Repr

/-- Plaintext of a ciphertext column or file.  Each constructor stands for
one textual serialization the code uses: UTF-8 strings, the serde_json
array of tag strings, RFC 3339 timestamps (`chrono::DateTime<Utc>` modelled
as a `Nat` tick), and raw byte payloads. -/
inductive Plain where
  | str (s : String)
  | tagList (l : List String)
  | time (t : Nat)
  | bytes (b : List Nat)
deriving DecidableEq, Repr

/-- A symbolic AES-256-GCM ciphertext as emitted by `Crypto::encrypt`:
the 12-byte nonce drawn from the OS RNG (prepended to the real output, so
it is the first 12 bytes of the stored blob), the key, the plaintext. -/
structure Ct where
  key : DKey
  nonce : List Nat
  plain : Plain
deriving DecidableEq, Repr

/-- The in-memory `Crypto` cipher slot: `none` when locked. -/
def CryptoSt : Type := Option DKey

/-- `Crypto::encrypt`: fails with `VaultLocked` when no key is armed,
otherwise packages the plaintext under the armed key with the supplied
fresh nonce. -/
def cryptoEncrypt (c : Option DKey) (nonce : List Nat) (p : Plain) :
    Except Err Ct :=
  match c with
  | none => .error .vaultLocked
  | some k => .ok ⟨k, nonce, p⟩

/-- `Crypto::decrypt`: fails with `VaultLocked` when no key is armed;
authenticated decryption succeeds exactly for ciphertexts produced under
the armed key and otherwise fails with `Decryption` (GCM tag mismatch).
Symbolic ciphertexts always carry their 12-byte nonce, so the
short-input `Decryption` branch of the code is unreachable here. -/
def cryptoDecrypt (c : Option DKey) (ct : Ct) : Except Err Plain :=
  match c with
  | none => .error .vaultLocked
  | some k => if ct.key = k then .ok ct.plain else .error .decryptionErr

/-- Pop the next 12-byte nonce from the OS RNG stream.  An exhausted
stream yields a zero nonce; theorems always supply enough entropy. -/
def draw (rng : List (List Nat)) : List Nat × List (List Nat) :=
  match rng with
  | [] => (List.replicate 12 0, [])
  | n :: rest => (n, rest)

/-- Decrypted catalogue row (`VaultItem` in storage.rs). -/
structure VaultItem where
  id : String
  parent_id : Option String
  name : String
  data_path : String
  item_type : String
  folder_type : Option String
  tags : List String
  created_at : Nat
  updated_at : Nat
deriving DecidableEq, Repr

/-- One encrypted row of the `vault_items` table: `id` and `parent_id` are
plaintext columns, every other column an independently encrypted blob. -/
structure Row where
  id : String
  parent_id : Option String
  name : Ct
  item_type : Ct
  data_path : Ct
  folder_type : Option Ct
  tags : Ct
  created_at : Ct
  updated_at : Ct
deriving DecidableEq, Repr

/-- The encrypted columns produced by one `add_item` / `update_item_fields`
call, in the order the code computes them. -/
structure EncFields where
  name : Ct
  item_type : Ct
  data_path : Ct
  tags : Ct
  folder_type : Option Ct
  created_at : Ct
  updated_at : Ct
deriving DecidableEq, Repr

/-- Encrypt the sensitive columns of an item under key `k`, drawing nonces
from `rng` in the source order of `update_item_fields` / `add_item`:
name, item_type, data_path, tags, folder_type (when present; `None` makes
no encryption call and draws no nonce), created_at, updated_at. -/
def encodeFields (k : DKey) (it : VaultItem) (rng : List (List Nat)) :
    EncFields × List (List Nat) :=
  let (n1, r1) := draw rng
  let (n2, r2) := draw r1
  let (n3, r3) := draw r2
  let (n4, r4) := draw r3
  let (ft, r5) :=
    match it.folder_type with
    | none => ((none : Option Ct), r4)
    | some s =>
        let (n5, r5) := draw r4
        (some ⟨k, n5, .str s⟩, r5)
  let (n6, r6) := draw r5
  let (n7, r7) := draw r6
  (⟨⟨k, n1, .str it.name⟩, ⟨k, n2, .str it.item_type⟩,
    ⟨k, n3, .str it.data_path⟩, ⟨k, n4, .tagList it.tags⟩, ft,
    ⟨k, n6, .time it.created_at⟩, ⟨k, n7, .time it.updated_at⟩⟩, r7)

/-- The SQL `UPDATE vault_items SET name = ?2, ... WHERE id = ?1` of
`update_item_fields`: replaces every encrypted column of the matched row
and leaves the plaintext `id` and `parent_id` columns untouched. -/
def applyFields (r : Row) (f : EncFields) : Row :=
  { r with name := f.name, item_type := f.item_type, data_path := f.data_path,
           folder_type := f.folder_type, tags := f.tags,
           created_at := f.created_at, updated_at := f.updated_at }

/-- Apply `update_item_fields` to every row whose `id` matches. -/
def updateRowsById (rows : List Row) (id : String) (f : EncFields) : List Row :=
  rows.map (fun r => if r.id = id then applyFields r f else r)

/-- A freshly inserted row (`add_item`): all columns from the item. -/
def mkRow (k : DKey) (it : VaultItem) (rng : List (List Nat)) :
    Row × List (List Nat) :=
  let (f, rng') := encodeFields k it rng
  (⟨it.id, it.parent_id, f.name, f.item_type, f.data_path, f.folder_type,
    f.tags, f.created_at, f.updated_at⟩, rng')

/-- Decrypt one column; `row_to_vault_item` wraps any decryption failure in
`rusqlite::Error::FromSqlConversionFailure`, which the storage layer's
`From` instance turns into `Error::Storage`. -/
def decCol (c : Option DKey) (ct : Ct) : Except Err Plain :=
  match cryptoDecrypt c ct with
  | .ok p => .ok p
  | .error _ => .error .storageErr

/-- Decrypt a string column; a non-string plaintext stands for a UTF-8 or
format failure, again surfaced as a conversion (`Storage`) error. -/
def decStr (c : Option DKey) (ct : Ct) : Except Err String :=
  match decCol c ct with
  | .error e => .error e
  | .ok (.str s) => .ok s
  | .ok _ => .error .storageErr

/-- Decrypt a timestamp column (RFC 3339 text that must parse). -/
def decTime (c : Option DKey) (ct : Ct) : Except Err Nat :=
  match decCol c ct with
  | .error e => .error e
  | .ok (.time t) => .ok t
  | .ok _ => .error .storageErr

/-- Decrypt the tags column: decryption failures propagate, but a
plaintext that fails to parse as a JSON string array falls back to the
empty tag list (`serde_json::from_str(..).unwrap_or_else(|_| vec![])`). -/
def decTags (c : Option DKey) (ct : Ct) : Except Err (List String) :=
  match decCol c ct with
  | .error e => .error e
  | .ok (.tagList l) => .ok l
  | .ok _ => .ok []

/-- `Storage::row_to_vault_item`: decrypt the columns in source order
(name, item_type, data_path, folder_type, tags, created_at, updated_at);
the first failing column aborts the mapping. -/
def rowToItem (c : Option DKey) (r : Row) : Except Err VaultItem :=
  match decStr c r.name with
  | .error e => .error e
  | .ok name =>
    match decStr c r.item_type with
    | .error e => .error e
    | .ok item_type =>
      match decStr c r.data_path with
      | .error e => .error e
      | .ok data_path =>
        match (match r.folder_type with
               | none => Except.ok (none : Option String)
               | some ct =>
                 match decStr c ct with
                 | .error e => Except.error e
                 | .ok s => Except.ok (some s)) with
        | .error e => .error e
        | .ok folder_type =>
          match decTags c r.tags with
          | .error e => .error e
          | .ok tags =>
            match decTime c r.created_at with
            | .error e => .error e
            | .ok created_at =>
              match decTime c r.updated_at with
              | .error e => .error e
              | .ok updated_at =>
                .ok ⟨r.id, r.parent_id, name, data_path, item_type,
                     folder_type, tags, created_at, updated_at⟩

/-- Decode a list of rows, stopping at the first failure: the
`collect::<Result<_>>` in `get_items` / `get_all_items_recursive`. -/
def decodeRows (c : Option DKey) : List Row → Except Err (List VaultItem)
  | [] => .ok []
  | r :: rest =>
    match rowToItem c r with
    | .error e => .error e
    | .ok it =>
      match decodeRows c rest with
      | .error e => .error e
      | .ok its => .ok (it :: its)

/-- Whole vault state: the on-disk layout (`salt`, `verify`, `vault.db`
rows and meta, the `data/` blob directory), the live `Crypto` cipher of
`VaultState`, the OS RNG nonce stream, a counter for fresh salts and
verification tokens, and the wall clock (`Utc::now()` tick). -/
structure VaultSt where
  saltFile : Option Nat
  verifyFile : Option Ct
  strengthMeta : Option Strength
  rows : List Row
  blobs : List (String × Ct)
  cipher : Option DKey
  rng : List (List Nat)
  fresh : Nat
  clock : Nat
deriving DecidableEq, Repr

/-- Look a payload file up in `data/`. -/
def lookupBlob (blobs : List (String × Ct)) (nm : String) : Option Ct :=
  (blobs.find? (fun p => p.1 = nm)).map (fun p => p.2)

/-- `fs::write` into `data/`: overwrite the file when it exists, create it
otherwise. -/
def writeBlob (blobs : List (String × Ct)) (nm : String) (ct : Ct) :
    List (String × Ct) :=
  if blobs.any (fun p => p.1 = nm) then
    blobs.map (fun p => if p.1 = nm then (nm, ct) else p)
  else blobs ++ [(nm, ct)]

/-- `Storage::read_encrypted_file`: read the blob (missing file is an
`Io` error) and decrypt it with the supplied cipher. -/
def readEncryptedFile (blobs : List (String × Ct)) (nm : String)
    (c : Option DKey) : Except Err Plain :=
  match lookupBlob blobs nm with
  | none => .error .ioError
  | some ct => cryptoDecrypt c ct

/-- `Storage::get_salt` (`fs::read` of the `salt` file). -/
def getSaltE (st : VaultSt) : Except Err Nat :=
  match st.saltFile with
  | none => .error .ioError
  | some s => .ok s

/-- `Storage::get_verification_token` (`fs::read` of `verify`). -/
def getVerifyE (st : VaultSt) : Except Err Ct :=
  match st.verifyFile with
  | none => .error .ioError
  | some ct => .ok ct

/-- `Storage::get_key_derivation_strength`: the `kdf_strength` meta value,
defaulting to `Recommended` when absent or unrecognized. -/
def getStrengthMeta (st : VaultSt) : Strength :=
  st.strengthMeta.getD .recommended

/-- `Storage::is_initialized`: both `salt` and `verify` exist. -/
def isInit (st : VaultSt) : Bool :=
  st.saltFile.isSome && st.verifyFile.isSome

/-- Output of the `get_vault_status` command. -/
structure VaultStatus where
  initialized : Bool
  unlocked : Bool
  strength : Option Strength
deriving DecidableEq, Repr

/-- The `get_vault_status` command in main.rs. -/
def getVaultStatus (st : VaultSt) : VaultStatus :=
  ⟨isInit st, st.cipher.isSome,
   if isInit st then some (getStrengthMeta st) else none⟩

/-- Draw a fresh 16-byte salt (`Crypto::generate_salt`); symbolically the
next value of the freshness counter. -/
def genSalt (st : VaultSt) : Nat × VaultSt :=
  (st.fresh, { st with fresh := st.fresh + 1 })

/-- ASCII upper-casing of a byte, as SQLite's built-in `LIKE` folds case. -/
def asciiUpper (n : Nat) : Nat := if 97 ≤ n ∧ n ≤ 122 then n - 32 else n

/-- Case-insensitive byte-prefix test. -/
def ciPrefixAux : List Nat → List Nat → Bool
  | [], _ => true
  | _ :: _, [] => false
  | a :: as1, b :: bs1 =>
      (asciiUpper a == asciiUpper b) && ciPrefixAux as1 bs1

/-- Bytes of an ASCII string (its character code points). -/
def strBytes (s : String) : List Nat := s.data.map Char.toNat

/-- SQLite evaluation of `column LIKE f || '%'` when `column` stores an
encrypted blob.  The blob's text rendering starts with the ciphertext's
12-byte random nonce, and SQLite's pattern matcher walks the rendering up
to its first NUL byte; the pattern matches exactly when the filter is an
ASCII-case-insensitive prefix of that rendering.  The model compares the
filter against the nonce prefix, which decides the match for filters of at
most 12 bytes (all filters used in the theorems below). -/
def ctLikePrefix (filter : String) (c : Ct) : Bool :=
  ciPrefixAux (strBytes filter) (c.nonce.takeWhile (fun b => b ≠ 0))

/-- SQLite evaluation of `column = 'text'` when `column` stores an
encrypted blob: TEXT and BLOB are distinct storage classes, and values of
different storage classes compare unequal (BLOB sorts after TEXT), so the
comparison is always false whatever the bytes. -/
def ctEqText (_c : Ct) (_t : String) : Bool := false

/-- Evaluation of `folder_type = ?` for a nullable encrypted column:
`NULL = x` is NULL (falsy), and a stored blob never equals TEXT. -/
def ctEqTextOpt : Option Ct → String → Bool
  | none, _ => false
  | some c, t => ctEqText c t

/-- `SortOrder` (storage.rs). -/
inductive SortOrder where
  | createdAtDesc
  | createdAtAsc
  | nameAsc
  | nameDesc
  | updatedAtDesc
  | updatedAtAsc
deriving DecidableEq, Repr

/-- Column named in `SortOrder::to_sql`'s ORDER BY clause — which, in this
storage variant, holds the encrypted blob. -/
def orderCol (o : SortOrder) (r : Row) : Ct :=
  match o with
  | .createdAtDesc => r.created_at
  | .createdAtAsc => r.created_at
  | .nameAsc => r.name
  | .nameDesc => r.name
  | .updatedAtDesc => r.updated_at
  | .updatedAtAsc => r.updated_at

/-- Whether the ORDER BY direction is DESC. -/
def orderIsDesc : SortOrder → Bool
  | .createdAtDesc => true
  | .nameDesc => true
  | .updatedAtDesc => true
  | _ => false

/-- Lexicographic (memcmp) strict order on byte lists, as SQLite compares
BLOB values. -/
def lexLtBytes : List Nat → List Nat → Bool
  | [], [] => false
  | [], _ :: _ => true
  | _ :: _, [] => false
  | a :: as1, b :: bs1 =>
      if a < b then true else if b < a then false else lexLtBytes as1 bs1

/-- Blob comparison of two ciphertext columns.  A stored blob is
`nonce ++ gcm body`; two ciphertexts with distinct nonces differ within
the first 12 bytes, so memcmp on the blobs is decided by the nonces.  The
model compares the nonces; states built in the theorems below always use
pairwise distinct nonces. -/
def ctBlobLt (a b : Ct) : Bool := lexLtBytes a.nonce b.nonce

/-- Ordering predicate (is `r1` allowed to precede `r2`?) realized by the
ORDER BY clause over the encrypted column. -/
def rowLe (o : SortOrder) (r1 r2 : Row) : Bool :=
  if orderIsDesc o then ! ctBlobLt (orderCol o r1) (orderCol o r2)
  else ! ctBlobLt (orderCol o r2) (orderCol o r1)

/-- Insert into a list sorted by `le`. -/
def insertBy (le : α → α → Bool) (x : α) : List α → List α
  | [] => [x]
  | y :: ys => if le x y then x :: y :: ys else y :: insertBy le x ys

/-- Insertion sort by `le` (any comparison sort agrees on lists whose keys
are pairwise strictly ordered, as the distinct-nonce states here are). -/
def sortedBy (le : α → α → Bool) : List α → List α
  | [] => []
  | x :: xs => insertBy le x (sortedBy le xs)

/-- WHERE clause of `Storage::get_items`: scope by the plaintext
`parent_id` column (`= ?` or `IS NULL`), and when a type filter is present
require `item_type LIKE f || '%' OR (item_type = 'folder' AND
folder_type = f)` — all evaluated by SQLite over the stored values, where
`item_type` and `folder_type` are encrypted blobs. -/
def getItemsWhere (pid : Option String) (filt : Option String) (r : Row) :
    Bool :=
  decide (r.parent_id = pid) &&
    (match filt with
     | none => true
     | some f =>
         ctLikePrefix f r.item_type ||
           (ctEqText r.item_type ("folder") && ctEqTextOpt r.folder_type f))

/-- `Storage::get_items`: filter in SQL, sort in SQL by the encrypted
column named in `SortOrder::to_sql` (default `CreatedAtDesc`), then map
rows through `row_to_vault_item`. -/
def getItems (pid : Option String) (filt : Option String)
    (ord : Option SortOrder) (c : Option DKey) (rows : List Row) :
    Except Err (List VaultItem) :=
  let o := ord.getD .createdAtDesc
  decodeRows c (sortedBy (rowLe o) (rows.filter (getItemsWhere pid filt)))

/-- The `get_vault_items` command: gated on an armed cipher. -/
def getVaultItems (pid : Option String) (filt : Option String)
    (ord : Option SortOrder) (st : VaultSt) : Except Err (List VaultItem) :=
  if st.cipher.isNone then .error .vaultLocked
  else getItems pid filt ord st.cipher st.rows

/-- `Storage::get_item`: first row with the given id, decoded. -/
def getItem (id : String) (c : Option DKey) (rows : List Row) :
    Except Err (Option VaultItem) :=
  match rows.find? (fun r => r.id = id) with
  | none => .ok none
  | some r =>
    match rowToItem c r with
    | .error e => .error e
    | .ok it => .ok (some it)

/-- Inner loop of `Storage::rename_tag_in_all_items` over one item's tag
list: rebuild the list, replacing occurrences of `oldT` by `newT` unless
`newT` is already among the rebuilt prefix, and record in the flag whether
the rename branch pushed anything. -/
def renameTagsOne (oldT newT : String) (tags : List String) :
    List String × Bool :=
  tags.foldl
    (fun acc tag =>
      if tag = oldT then
        if acc.1.contains newT then acc else (acc.1 ++ [newT], true)
      else (acc.1 ++ [tag], acc.2))
    ([], false)

/-- Per-item processing of `rename_tag_in_all_items`: when the flag is
set, install the rebuilt tags, stamp `updated_at` with `Utc::now()`, and
rewrite the whole row in the transaction under fresh nonces. -/
def renameAllGo (k : DKey) (clock : Nat) (oldT newT : String) :
    List VaultItem → List Row → List (List Nat) → List Row × List (List Nat)
  | [], rows, rng => (rows, rng)
  | it :: rest, rows, rng =>
    let p := renameTagsOne oldT newT it.tags
    if p.2 then
      let it' := { it with tags := p.1, updated_at := clock }
      let f := encodeFields k it' rng
      renameAllGo k clock oldT newT rest (updateRowsById rows it.id f.1) f.2
    else renameAllGo k clock oldT newT rest rows rng

/-- `Storage::rename_tag_in_all_items`: decode every row with the live
cipher, then rewrite the changed items in one transaction. -/
def renameTagInAllItems (oldT newT : String) (c : Option DKey)
    (st : VaultSt) : Except Err Unit × VaultSt :=
  match c with
  | none => (.error .storageErr, st)
  | some k =>
    match decodeRows c st.rows with
    | .error e => (.error e, st)
    | .ok items =>
      let r := renameAllGo k st.clock oldT newT items st.rows st.rng
      (.ok (), { st with rows := r.1, rng := r.2 })

/-- Rust's `str::trim().is_empty()`: true when the string holds only
whitespace. -/
def trimIsEmpty (s : String) : Bool :=
  (s.data.dropWhile (fun c => c.isWhitespace)).isEmpty

/-- The `rename_tag` command: rejects a whitespace-only new name,
requires an armed cipher, then delegates. -/
def renameTag (oldT newT : String) (st : VaultSt) :
    Except Err Unit × VaultSt :=
  if trimIsEmpty newT then (.error .invalidInput, st)
  else if st.cipher.isNone then (.error .vaultLocked, st)
  else renameTagInAllItems oldT newT st.cipher st

/-- Per-item processing of `remove_tag_from_all_items`: `retain` drops the
tag, and the row is rewritten only when the length changed. -/
def removeAllGo (k : DKey) (clock : Nat) (tagToRemove : String) :
    List VaultItem → List Row → List (List Nat) → List Row × List (List Nat)
  | [], rows, rng => (rows, rng)
  | it :: rest, rows, rng =>
    let tags' := it.tags.filter (fun tag => tag ≠ tagToRemove)
    if tags'.length ≠ it.tags.length then
      let it' := { it with tags := tags', updated_at := clock }
      let f := encodeFields k it' rng
      removeAllGo k clock tagToRemove rest (updateRowsById rows it.id f.1) f.2
    else removeAllGo k clock tagToRemove rest rows rng

/-- `Storage::remove_tag_from_all_items`. -/
def removeTagFromAllItems (tagToRemove : String) (c : Option DKey)
    (st : VaultSt) : Except Err Unit × VaultSt :=
  match c with
  | none => (.error .storageErr, st)
  | some k =>
    match decodeRows c st.rows with
    | .error e => (.error e, st)
    | .ok items =>
      let r := removeAllGo k st.clock tagToRemove items st.rows st.rng
      (.ok (), { st with rows := r.1, rng := r.2 })

/-- The `delete_tag` command. -/
def deleteTag (tagToRemove : String) (st : VaultSt) :
    Except Err Unit × VaultSt :=
  if st.cipher.isNone then (.error .vaultLocked, st)
  else removeTagFromAllItems tagToRemove st.cipher st

/-- Ids of the children of `pid`, in row (insertion) order: the
`SELECT id FROM vault_items WHERE parent_id = ?1` of the delete loop. -/
def childIds (rows : List Row) (pid : String) : List String :=
  (rows.filter (fun r => r.parent_id = some pid)).map (fun r => r.id)

/-- The descendant-collection loop of `delete_item_and_descendants`.  The
Rust loop pops the last element of the work vector and appends the popped
node's children; the model keeps the vector reversed (head = next pop), so
popping is head removal and extending pushes the reversed child list in
front.  The Rust loop has no fuel and diverges on a cyclic `parent_id`
graph; the model adds explicit fuel, proven sufficient for acyclic states
(see the delete theorems). -/
def collectGo (rows : List Row) : Nat → List String → List String → List String
  | 0, _, acc => acc
  | _ + 1, [], acc => acc
  | fuel + 1, cur :: queue, acc =>
      collectGo rows fuel ((childIds rows cur).reverse ++ queue) (acc ++ [cur])

/-- Fuel budget for the collection loop: enough for any forest-shaped
`parent_id` graph over the row set. -/
def collectFuel (rows : List Row) : Nat :=
  (rows.length + 1) ^ (rows.length + 1) + 1

/-- Ids gathered by `delete_item_and_descendants`, the root included. -/
def collectIds (rows : List Row) (rootId : String) : List String :=
  collectGo rows (collectFuel rows) [rootId] []

/-- `Storage::delete_item_and_descendants`: collect the doomed ids, read
their `data_path` columns (rows that fail to decode are silently skipped
by the `filter_map(.. .ok())`, and empty paths — folders — are dropped),
delete all doomed rows in one statement, commit, and only then shred and
unlink each payload file (shred and unlink failures are logged, never
propagated).  The ids list is never empty (the root is always pushed), so
the early-commit branch of the code is unreachable. -/
def deleteItemAndDescendants (id : String) (c : Option DKey) (st : VaultSt) :
    VaultSt :=
  let ids := collectIds st.rows id
  let doomed := st.rows.filter (fun r => ids.contains r.id)
  let paths :=
    ((doomed.filterMap (fun r => (rowToItem c r).toOption)).map
        (fun it => it.data_path)).filter (fun p => p ≠ "")
  let rows' := st.rows.filter (fun r => ! ids.contains r.id)
  let blobs' := st.blobs.filter (fun b => ! paths.contains b.1)
  { st with rows := rows', blobs := blobs' }

/-- The `delete_item` command: gated on an armed cipher, then always
reports `Ok(true)`. -/
def deleteItem (id : String) (st : VaultSt) : Except Err Bool × VaultSt :=
  if st.cipher.isNone then (.error .vaultLocked, st)
  else (.ok true, deleteItemAndDescendants id st.cipher st)

/-- The `unlock_vault` command: read salt, strength, and the verification
token (failures leave the state untouched), derive the key and arm the
cipher, then attempt to decrypt the token; on failure lock the cipher
again and report `InvalidMasterKey`. -/
def unlockVault (masterKey : String) (st : VaultSt) :
    Except Err Unit × VaultSt :=
  match st.saltFile with
  | none => (.error .ioError, st)
  | some salt =>
    match st.verifyFile with
    | none => (.error .ioError, st)
    | some vtok =>
      let dk : DKey := ⟨masterKey, salt, getStrengthMeta st⟩
      if vtok.key = dk then (.ok (), { st with cipher := some dk })
      else (.error .invalidMasterKey, { st with cipher := none })

/-- The `lock_vault` command. -/
def lockVault (st : VaultSt) : VaultSt := { st with cipher := none }

/-- The per-item loop of `update_master_key`: re-encrypt the row's columns
under the new key via `update_item_fields`, and for items carrying a blob
read it under the old cipher, re-encrypt under the new cipher, and write
it back to the same `data_path`.  Read or decrypt failures abort with the
error (`?` propagation). -/
def reencLoop (oldK newK : DKey) :
    List VaultItem → List Row → List (String × Ct) → List (List Nat) →
    Except Err Unit × List Row × List (String × Ct) × List (List Nat)
  | [], rows, blobs, rng => (.ok (), rows, blobs, rng)
  | it :: rest, rows, blobs, rng =>
    let f := encodeFields newK it rng
    let rows1 := updateRowsById rows it.id f.1
    if it.data_path = "" then reencLoop oldK newK rest rows1 blobs f.2
    else
      match lookupBlob blobs it.data_path with
      | none => (.error .ioError, rows1, blobs, f.2)
      | some ct =>
        match cryptoDecrypt (some oldK) ct with
        | .error e => (.error e, rows1, blobs, f.2)
        | .ok p =>
          let n := draw f.2
          reencLoop oldK newK rest rows1
            (writeBlob blobs it.data_path ⟨newK, n.1, p⟩) n.2

/-- The `update_master_key` command (main.rs lines 417-465): verify the
current password by arming the live cipher with the key derived from the
stored salt and strength and test-decrypting `verify` (on mismatch, lock
and fail with `InvalidMasterKey`); generate a fresh salt, derive the new
key under the requested (or current) strength and arm a second cipher;
re-encrypt every row and blob; re-encrypt the verification token; persist
the new salt and strength; finally make the new cipher the live one. -/
def updateMasterKey (currentKey newKey : String) (os : Option Strength)
    (st : VaultSt) : Except Err Unit × VaultSt :=
  match st.saltFile with
  | none => (.error .ioError, st)
  | some currentSalt =>
    match st.verifyFile with
    | none => (.error .ioError, st)
    | some vtok =>
      let currentStrength := getStrengthMeta st
      let dk : DKey := ⟨currentKey, currentSalt, currentStrength⟩
      if vtok.key ≠ dk then (.error .invalidMasterKey, { st with cipher := none })
      else
        let st1 := { st with cipher := some dk }
        let newStrength := os.getD currentStrength
        let g := genSalt st1
        let newDk : DKey := ⟨newKey, g.1, newStrength⟩
        let st2 := g.2
        match decodeRows (some dk) st2.rows with
        | .error e => (.error e, st2)
        | .ok allItems =>
          match reencLoop dk newDk allItems st2.rows st2.blobs st2.rng with
          | (.error e, rows', blobs', rng') =>
            (.error e, { st2 with rows := rows', blobs := blobs', rng := rng' })
          | (.ok (), rows', blobs', rng') =>
            match cryptoDecrypt (some dk) vtok with
            | .error e =>
              (.error e, { st2 with rows := rows', blobs := blobs', rng := rng' })
            | .ok tokenPlain =>
              let n := draw rng'
              let newVerify : Ct := ⟨newDk, n.1, tokenPlain⟩
              (.ok (),
               { st2 with rows := rows', blobs := blobs', rng := n.2,
                          verifyFile := some newVerify,
                          saltFile := some g.1,
                          strengthMeta := some newStrength,
                          cipher := some newDk })

/-- One entry of the decrypted export: the decoded item and, for items
carrying a payload, the decrypted payload plaintext (base64-coded into the
JSON document by the code). -/
def exportEntries (c : Option DKey) (blobs : List (String × Ct)) :
    List VaultItem → Except Err (List (VaultItem × Option Plain))
  | [] => .ok []
  | it :: rest =>
    match (if it.data_path = "" then Except.ok (none : Option Plain)
           else
             match readEncryptedFile blobs it.data_path c with
             | .error e => Except.error e
             | .ok p => Except.ok (some p)) with
    | .error e => .error e
    | .ok content =>
      match exportEntries c blobs rest with
      | .error e => .error e
      | .ok l => .ok ((it, content) :: l)

/-- The `export_decrypted_vault` command (main.rs lines 467-508): verify
the supplied password with throwaway ciphers (on mismatch fail without
touching the live cipher), then arm the *live* cipher with the derived
key, decode every item and decrypt every payload.  No path re-locks the
live cipher afterwards, even on error. -/
def exportDecryptedVault (masterKey : String) (st : VaultSt) :
    Except Err (List (VaultItem × Option Plain)) × VaultSt :=
  match st.saltFile with
  | none => (.error .ioError, st)
  | some salt =>
    match st.verifyFile with
    | none => (.error .ioError, st)
    | some vtok =>
      let key : DKey := ⟨masterKey, salt, getStrengthMeta st⟩
      if vtok.key ≠ key then (.error .invalidMasterKey, st)
      else
        let st1 := { st with cipher := some key }
        match decodeRows st1.cipher st1.rows with
        | .error e => (.error e, st1)
        | .ok items =>
          match exportEntries st1.cipher st1.blobs items with
          | .error e => (.error e, st1)
          | .ok entries => (.ok entries, st1)

/-- Reflexive-transitive closure of the child edges of the catalogue:
`Desc rows root d` says `d` is `root` or reachable from `root` along
`parent_id` links. -/
inductive Desc (rows : List Row) (root : String) : String → Prop
  | refl : Desc rows root root
  | step {p c : String} : Desc rows root p →
      (∃ r ∈ rows, r.id = c ∧ r.parent_id = some p) → Desc rows root c

/-- A 12-byte nonce with a chosen leading byte: concrete RNG output used
by the fixture states below. -/
def nonce12 (a : Nat) : List Nat := a :: List.replicate 11 0

/-- Fixture master key for concrete states: derived from password `pw`,
salt 0, `Fast` strength. -/
def exKey : DKey := ⟨("pw"), 0, .fast⟩

/-- Fixture text item: created at tick 5, payload file `bp`. -/
def exTextItem : VaultItem :=
  ⟨("idT"), none, ("zeta"), ("bp"), ("text/plain"), none, [], 5, 5⟩

/-- Fixture folder with `folder_type = passwords`, created at tick 9. -/
def exFolderItem : VaultItem :=
  ⟨("idF"), none, ("alpha"), (""), ("folder"), some ("passwords"), [], 9, 9⟩

/-- Encrypted row of `exTextItem`.  Its `created_at` ciphertext nonce
starts with byte 20, making its stored blob memcmp-larger than the
folder's. -/
def exRowText : Row :=
  ⟨("idT"), none, ⟨exKey, nonce12 21, .str ("zeta")⟩,
   ⟨exKey, nonce12 22, .str ("text/plain")⟩,
   ⟨exKey, nonce12 23, .str ("bp")⟩, none,
   ⟨exKey, nonce12 24, .tagList []⟩,
   ⟨exKey, nonce12 20, .time 5⟩,
   ⟨exKey, nonce12 25, .time 5⟩⟩

/-- Encrypted row of `exFolderItem`.  Its `item_type` ciphertext nonce
starts with byte 0, so SQLite's text rendering of that blob is empty. -/
def exRowFolder : Row :=
  ⟨("idF"), none, ⟨exKey, nonce12 31, .str ("alpha")⟩,
   ⟨exKey, nonce12 0, .str ("folder")⟩,
   ⟨exKey, nonce12 32, .str ("")⟩,
   some ⟨exKey, nonce12 33, .str ("passwords")⟩,
   ⟨exKey, nonce12 34, .tagList []⟩,
   ⟨exKey, nonce12 1, .time 9⟩,
   ⟨exKey, nonce12 35, .time 9⟩⟩

/-- Fixture unlocked vault holding the text item and the folder. -/
def exListSt : VaultSt :=
  ⟨some 0, some ⟨exKey, nonce12 2, .bytes [7]⟩, some .fast,
   [exRowText, exRowFolder],
   [(("bp"), ⟨exKey, nonce12 3, .bytes [1, 2]⟩)],
   some exKey, [], 1, 50⟩

/-- Fixture item carrying the single tag `x`, updated at tick 5. -/
def exTagItem : VaultItem :=
  ⟨("idX"), none, ("note"), (""), ("text/plain"), none, [("x")], 5, 5⟩

/-- Encrypted row of `exTagItem`. -/
def exTagRow : Row :=
  ⟨("idX"), none, ⟨exKey, nonce12 41, .str ("note")⟩,
   ⟨exKey, nonce12 42, .str ("text/plain")⟩,
   ⟨exKey, nonce12 43, .str ("")⟩, none,
   ⟨exKey, nonce12 44, .tagList [("x")]⟩,
   ⟨exKey, nonce12 45, .time 5⟩,
   ⟨exKey, nonce12 46, .time 5⟩⟩

/-- Fixture unlocked vault holding only `exTagItem`; the wall clock reads
tick 50 and the RNG stream holds ten fresh nonces. -/
def exTagSt : VaultSt :=
  ⟨some 0, some ⟨exKey, nonce12 2, .bytes [7]⟩, some .fast, [exTagRow], [],
   some exKey,
   [nonce12 61, nonce12 62, nonce12 63, nonce12 64, nonce12 65, nonce12 66,
    nonce12 67, nonce12 68, nonce12 69, nonce12 70], 1, 50⟩

/-- Fixture item whose tags are `[a, b]`: it already carries the new tag
after an occurrence of the old one. -/
def exTagItem2 : VaultItem :=
  ⟨("idY"), none, ("note2"), (""), ("text/plain"), none, [("a"), ("b")], 5, 5⟩

/-- Encrypted row of `exTagItem2`. -/
def exTagRow2 : Row :=
  ⟨("idY"), none, ⟨exKey, nonce12 41, .str ("note2")⟩,
   ⟨exKey, nonce12 42, .str ("text/plain")⟩,
   ⟨exKey, nonce12 43, .str ("")⟩, none,
   ⟨exKey, nonce12 44, .tagList [("a"), ("b")]⟩,
   ⟨exKey, nonce12 45, .time 5⟩,
   ⟨exKey, nonce12 46, .time 5⟩⟩

/-- Fixture unlocked vault holding only `exTagItem2`. -/
def exTagSt2 : VaultSt :=
  ⟨some 0, some ⟨exKey, nonce12 2, .bytes [7]⟩, some .fast, [exTagRow2], [],
   some exKey,
   [nonce12 61, nonce12 62, nonce12 63, nonce12 64, nonce12 65, nonce12 66,
    nonce12 67, nonce12 68, nonce12 69, nonce12 70], 1, 50⟩

/-- The payload file names carried by a list of items (folders, with
their empty `data_path`, excluded). -/
def pathsOf (items : List VaultItem) : List String :=
  items.filterMap (fun it => if it.data_path = "" then none else some it.data_path)

/-- Fixture folder row for the delete theorems: id `idF`, top level. -/
def exDelRowF : Row :=
  ⟨("idF"), none, ⟨exKey, nonce12 31, .str ("docs")⟩,
   ⟨exKey, nonce12 30, .str ("folder")⟩,
   ⟨exKey, nonce12 32, .str ("")⟩, none,
   ⟨exKey, nonce12 34, .tagList []⟩,
   ⟨exKey, nonce12 1, .time 9⟩,
   ⟨exKey, nonce12 35, .time 9⟩⟩

/-- Fixture file row inside the folder: id `idT`, parent `idF`, payload
file `tp`. -/
def exDelRowT : Row :=
  ⟨("idT"), some ("idF"), ⟨exKey, nonce12 21, .str ("a-file")⟩,
   ⟨exKey, nonce12 22, .str ("application/pdf")⟩,
   ⟨exKey, nonce12 23, .str ("tp")⟩, none,
   ⟨exKey, nonce12 24, .tagList []⟩,
   ⟨exKey, nonce12 20, .time 5⟩,
   ⟨exKey, nonce12 25, .time 5⟩⟩

/-- Decoded form of `exDelRowT`. -/
def exDelItemT : VaultItem :=
  ⟨("idT"), some ("idF"), ("a-file"), ("tp"), ("application/pdf"), none, [],
   5, 5⟩

/-- Fixture unlocked vault for the delete theorems: the folder `idF`
holding the file `idT`, whose payload `tp` (bytes 0xDE 0xAD) lies in
`data/`. -/
def exDelSt : VaultSt :=
  ⟨some 0, some ⟨exKey, nonce12 2, .bytes [7]⟩, some .fast,
   [exDelRowF, exDelRowT],
   [(("tp"), ⟨exKey, nonce12 4, .bytes [222, 173]⟩)],
   some exKey, [], 1, 50⟩

/-! Theorems.  Helper lemmas come first, then one theorem per claim
(with a closed witness for every proved theorem that has hypotheses). -/

theorem b64Len (l : List Nat) :
    (b64EncodeBytes l).length = (l.length * 4 + 2) / 3 := by
  match l with
  | [] => rfl
  | [_] => simp [b64EncodeBytes]
  | [_, _] => simp [b64EncodeBytes]
  | b1 :: b2 :: b3 :: rest =>
    have ih := b64Len rest
    simp only [b64EncodeBytes, List.length_cons, ih]
    omega

/-- C1, counterexample.  The claim says `derive_key` runs Argon2id over
the raw 16 salt bytes with no encoding step.  Instantiating the abstract
Argon2id core with the projection that returns the very salt bytes it was
fed shows the code feeds the unpadded base64 text of the salt, not the
raw bytes: on the all-zero 16-byte salt the KDF receives 22 bytes of
ASCII `A`, which differ from the raw salt. -/
theorem c1_salt_is_encoded :
    deriveKey (fun _ _ _ saltText => saltText) [112, 119]
        (List.replicate 16 0) .recommended = .ok (List.replicate 22 65) ∧
      (List.replicate 22 65 : List Nat) ≠ List.replicate 16 0 := by
  constructor
  · rfl
  · decide

/-- C1, amended.  For every password, every 16-byte salt, and every
strength profile, `derive_key` succeeds and returns exactly the Argon2id
(version 1.3, profile parameters) output over the password bytes and the
unpadded standard-base64 encoding of the salt — a 22-byte ASCII text —
rather than the raw 16 salt bytes. -/
theorem c1_amended (a2 : Nat → Argon2Params → List Nat → List Nat → List Nat)
    (pw salt : List Nat) (s : Strength) (hlen : salt.length = 16) :
    deriveKey a2 pw salt s =
        .ok (a2 argon2Version (getParams s) pw (b64EncodeBytes salt)) ∧
      (b64EncodeBytes salt).length = 22 := by
  constructor
  · have h48 : ¬ 48 < salt.length := by omega
    simp [deriveKey, encodeB64Salt, h48]
  · rw [b64Len, hlen]

/-- C1, witness for the amended theorem at password `pw` bytes and the
all-zero 16-byte salt under the `Fast` profile. -/
theorem c1_amended_witness :
    (List.replicate 16 0 : List Nat).length = 16 ∧
      (deriveKey (fun _ _ _ saltText => saltText) [112, 119]
          (List.replicate 16 0) .fast =
        .ok ((fun _ _ _ saltText => saltText) argon2Version (getParams .fast)
          [112, 119] (b64EncodeBytes (List.replicate 16 0))) ∧
      (b64EncodeBytes (List.replicate 16 0)).length = 22) :=
  ⟨by decide,
   c1_amended (fun _ _ _ saltText => saltText) [112, 119]
     (List.replicate 16 0) .fast (by decide)⟩

/-- C3, evaluation at the failing input.  In the shipped storage variant
`get_items` delegates sorting to SQLite via `SortOrder::to_sql`, so the
ORDER BY runs over the *encrypted* `created_at` blobs, whose leading
bytes are the random nonces.  On a vault holding a text item (created at
tick 5, `created_at` nonce starting 20) and a folder (created at tick 9,
nonce starting 1), the default created-desc listing returns the text item
first: the folder does not precede the non-folder, and the plaintext
created-desc order (folder first, being newer) is violated as well. -/
theorem c3_sorts_ciphertext_not_folders_first :
    getVaultItems none none none exListSt = .ok [exTextItem, exFolderItem] ∧
      exTextItem.item_type ≠ ("folder") ∧
      exFolderItem.item_type = ("folder") ∧
      exTextItem.created_at = 5 ∧ exFolderItem.created_at = 9 := by
  refine ⟨by decide, by decide, by decide, by decide, by decide⟩

/-- C4, evaluation at the failing input.  The type filter runs in SQL
over the encrypted columns: `item_type = 'folder'` compares a BLOB with
TEXT (always false in SQLite), and `item_type LIKE f || '%'` matches the
ciphertext bytes, not the plaintext.  On the same fixture vault, filtering
by `passwords` misses the folder whose plaintext `folder_type` equals
`passwords` exactly, and filtering by `text` misses the item whose
plaintext `item_type` starts with `text`: both listings are empty though
the claim requires both items to be returned. -/
theorem c4_filter_never_matches :
    rowToItem (some exKey) exRowFolder = .ok exFolderItem ∧
      exFolderItem.folder_type = some ("passwords") ∧
      getVaultItems none (some ("passwords")) none exListSt = .ok [] ∧
      rowToItem (some exKey) exRowText = .ok exTextItem ∧
      (("text") : String).data.isPrefixOf exTextItem.item_type.data = true ∧
      getVaultItems none (some ("text")) none exListSt = .ok [] := by
  refine ⟨by decide, by decide, by decide, by decide, by decide, by decide⟩

/-- C6.  On an initialized vault, when the key derived from the supplied
password does not match the key under which the verification token was
encrypted, `unlock_vault` reports `InvalidMasterKey` and leaves the
cipher locked, so the status reads unlocked = false. -/
theorem c6_failed_unlock_relocks (st : VaultSt) (mk : String) (salt : Nat)
    (vtok : Ct) (hs : st.saltFile = some salt) (hv : st.verifyFile = some vtok)
    (hk : vtok.key ≠ ⟨mk, salt, getStrengthMeta st⟩) :
    (unlockVault mk st).1 = .error .invalidMasterKey ∧
      (unlockVault mk st).2.cipher = none ∧
      (getVaultStatus (unlockVault mk st).2).unlocked = false := by
  simp [unlockVault, hs, hv, hk, getVaultStatus]

/-- C6, witness: unlocking the fixture vault with the wrong password
fails with `InvalidMasterKey` and leaves the status locked. -/
theorem c6_failed_unlock_relocks_witness :
    (unlockVault ("PW") exListSt).1 = .error .invalidMasterKey ∧
      (unlockVault ("PW") exListSt).2.cipher = none ∧
      (getVaultStatus (unlockVault ("PW") exListSt).2).unlocked = false :=
  c6_failed_unlock_relocks exListSt ("PW") 0 ⟨exKey, nonce12 2, .bytes [7]⟩
    (by decide) (by decide) (by decide)

/-- C7, evaluation at the failing input.  `rename_tag(x, x)` is not a
no-op: on an item whose tags are exactly `[x]`, the rename loop pushes
the new tag and sets the change flag even though old and new coincide, so
the item's row is rewritten and its `updated_at` is bumped to the current
clock (tick 50) although its tag list is unchanged — refuting both
`rename_tag(x, x)` changes nothing and `updated_at` is bumped only for
items whose tag list actually changed.  (The delete_tag half of the claim
does hold; the rename half fails.) -/
theorem c7_rename_same_tag_rewrites :
    renameTagsOne ("x") ("x") [("x")] = ([("x")], true) ∧
      (renameTag ("x") ("x") exTagSt).1 = .ok () ∧
      decodeRows (some exKey) (renameTag ("x") ("x") exTagSt).2.rows =
        .ok [{ exTagItem with updated_at := 50 }] ∧
      exTagItem.updated_at = 5 ∧
      (renameTag ("x") ("x") exTagSt).2.rows ≠ exTagSt.rows := by
  refine ⟨by decide, by decide, by decide, by decide, by decide⟩

/-- C8, evaluation at the failing input.  On an item whose tags are
`[a, b]`, `rename_tag(a, b)` produces the stored tag list `[b, b]`: the
duplicate guard only checks the rebuilt prefix when replacing an
occurrence of the old tag, so a later plain occurrence of the new tag is
appended unconditionally, and the rewritten row persists a duplicate. -/
theorem c8_rename_leaves_duplicate :
    renameTagsOne ("a") ("b") [("a"), ("b")] = ([("b"), ("b")], true) ∧
      (renameTag ("a") ("b") exTagSt2).1 = .ok () ∧
      decodeRows (some exKey) (renameTag ("a") ("b") exTagSt2).2.rows =
        .ok [{ exTagItem2 with tags := [("b"), ("b")], updated_at := 50 }] ∧
      ¬ ([("b"), ("b")] : List String).Nodup := by
  refine ⟨by decide, by decide, by decide, by decide⟩

/-- C9.  Calling `export_decrypted_vault` with the correct master key on
a locked vault arms the live cipher with the derived key as a side effect
and leaves it armed when the call returns (no path re-locks it), so the
status afterwards reports unlocked = true. -/
theorem c9_export_arms_live_cipher (st : VaultSt) (mk : String) (salt : Nat)
    (vtok : Ct) (hs : st.saltFile = some salt) (hv : st.verifyFile = some vtok)
    (hk : vtok.key = ⟨mk, salt, getStrengthMeta st⟩)
    (_hlocked : st.cipher = none) :
    (exportDecryptedVault mk st).2.cipher =
        some ⟨mk, salt, getStrengthMeta st⟩ ∧
      (getVaultStatus (exportDecryptedVault mk st).2).unlocked = true := by
  have hcore : (exportDecryptedVault mk st).2.cipher =
      some ⟨mk, salt, getStrengthMeta st⟩ := by
    simp only [exportDecryptedVault, hs, hv, hk]
    simp only [ne_eq, not_true_eq_false, if_false]
    cases hdec : decodeRows (some (⟨mk, salt, getStrengthMeta st⟩ : DKey))
        ({ st with cipher := some ⟨mk, salt, getStrengthMeta st⟩ } : VaultSt).rows with
    | error e => simp [hdec]
    | ok items =>
      cases hexp : exportEntries (some (⟨mk, salt, getStrengthMeta st⟩ : DKey))
          ({ st with cipher := some ⟨mk, salt, getStrengthMeta st⟩ } : VaultSt).blobs items with
      | error e => simp [hdec, hexp]
      | ok entries => simp [hdec, hexp]
  exact ⟨hcore, by simp [getVaultStatus, hcore]⟩

/-- C9, witness: exporting the fixture vault, locked beforehand, with the
correct password leaves the cipher armed and the status unlocked. -/
theorem c9_export_arms_live_cipher_witness :
    (exportDecryptedVault ("pw") (lockVault exListSt)).2.cipher =
        some ⟨("pw"), 0, .fast⟩ ∧
      (getVaultStatus
        (exportDecryptedVault ("pw") (lockVault exListSt)).2).unlocked = true :=
  c9_export_arms_live_cipher (lockVault exListSt) ("pw") 0
    ⟨exKey, nonce12 2, .bytes [7]⟩ (by decide) (by decide) (by decide)
    (by decide)

/-- C10.  With the vault unlocked, `delete_item(id)` returns `Ok(true)`
even when no item with that id exists: the collection loop always pushes
the root id, the SQL statements affect zero rows, and no `ItemNotFound`
is ever produced. -/
theorem c10_delete_missing_id_ok (st : VaultSt) (id : String) (k : DKey)
    (hc : st.cipher = some k) (_hmissing : ∀ r ∈ st.rows, r.id ≠ id) :
    (deleteItem id st).1 = .ok true := by
  simp [deleteItem, hc]

/-- C10, witness: deleting an id absent from the fixture vault still
reports `Ok(true)`. -/
theorem c10_delete_missing_id_ok_witness :
    (deleteItem ("nope") exListSt).1 = .ok true :=
  c10_delete_missing_id_ok exListSt ("nope") exKey (by decide) (by decide)

theorem rowToItem_ids {c : Option DKey} {r : Row} {it : VaultItem}
    (h : rowToItem c r = .ok it) : it.id = r.id ∧ it.parent_id = r.parent_id := by
  unfold rowToItem at h
  repeat' split at h
  all_goals first
    | (injection h with h; subst h; exact ⟨rfl, rfl⟩)
    | injection h

theorem decStr_mk (k : DKey) (n : List Nat) (s : String) :
    decStr (some k) ⟨k, n, .str s⟩ = .ok s := by
  simp [decStr, decCol, cryptoDecrypt]

theorem decTags_mk (k : DKey) (n : List Nat) (l : List String) :
    decTags (some k) ⟨k, n, .tagList l⟩ = .ok l := by
  simp [decTags, decCol, cryptoDecrypt]

theorem decTime_mk (k : DKey) (n : List Nat) (t : Nat) :
    decTime (some k) ⟨k, n, .time t⟩ = .ok t := by
  simp [decTime, decCol, cryptoDecrypt]

theorem rowToItem_applyFields (k : DKey) (it : VaultItem) (r : Row)
    (rng : List (List Nat)) :
    rowToItem (some k) (applyFields r (encodeFields k it rng).1) =
      .ok { it with id := r.id, parent_id := r.parent_id } := by
  cases hft : it.folder_type with
  | none =>
    simp [encodeFields, hft, applyFields, rowToItem, decStr_mk, decTags_mk,
      decTime_mk]
  | some s =>
    simp [encodeFields, hft, applyFields, rowToItem, decStr_mk, decTags_mk,
      decTime_mk]

theorem decodeRows_nil_of_ok_nil {c : Option DKey} {rows : List Row}
    (h : decodeRows c rows = .ok []) : rows = [] := by
  cases rows with
  | nil => rfl
  | cons r rest =>
    simp only [decodeRows] at h
    cases h1 : rowToItem c r with
    | error e => simp [h1] at h
    | ok it =>
      cases h2 : decodeRows c rest with
      | error e => simp [h1, h2] at h
      | ok its => simp [h1, h2] at h

theorem decodeRows_cons_inv {c : Option DKey} {rows : List Row}
    {it : VaultItem} {its : List VaultItem}
    (h : decodeRows c rows = .ok (it :: its)) :
    ∃ r rest, rows = r :: rest ∧ rowToItem c r = .ok it ∧
      decodeRows c rest = .ok its := by
  cases rows with
  | nil => simp [decodeRows] at h
  | cons r rest =>
    refine ⟨r, rest, rfl, ?_⟩
    simp only [decodeRows] at h
    cases h1 : rowToItem c r with
    | error e => simp [h1] at h
    | ok it' =>
      cases h2 : decodeRows c rest with
      | error e => simp [h1, h2] at h
      | ok its' =>
        simp [h1, h2] at h
        exact ⟨by rw [h.1], by rw [h.2]⟩

theorem decodeRows_cons_ok {c : Option DKey} {r : Row} {rest : List Row}
    {it : VaultItem} {its : List VaultItem} (h1 : rowToItem c r = .ok it)
    (h2 : decodeRows c rest = .ok its) :
    decodeRows c (r :: rest) = .ok (it :: its) := by
  simp [decodeRows, h1, h2]

theorem updateRowsById_append (l1 l2 : List Row) (id : String)
    (f : EncFields) :
    updateRowsById (l1 ++ l2) id f =
      updateRowsById l1 id f ++ updateRowsById l2 id f := by
  simp [updateRowsById]

theorem updateRowsById_not_mem {l : List Row} {id : String} {f : EncFields}
    (h : ∀ r ∈ l, r.id ≠ id) : updateRowsById l id f = l := by
  induction l with
  | nil => rfl
  | cons r rest ih =>
    have hr : r.id ≠ id := h r (by simp)
    have hrest := ih (fun r' hr' => h r' (by simp [hr']))
    simp only [updateRowsById, List.map_cons, if_neg hr] at *
    rw [hrest]

theorem applyFields_id (r : Row) (f : EncFields) :
    (applyFields r f).id = r.id := rfl



theorem lookupReplaceAll (blobs : List (String × Ct)) (nm : String) (ct : Ct)
    (h : blobs.any (fun p => p.1 = nm) = true) :
    lookupBlob (blobs.map (fun p => if p.1 = nm then (nm, ct) else p)) nm =
      some ct := by
  induction blobs with
  | nil => simp at h
  | cons b rest ih =>
    by_cases hb : b.1 = nm
    · simp only [List.map_cons, if_pos hb, lookupBlob]
      rw [List.find?_cons_of_pos _ (by simp)]
      rfl
    · have hrest : rest.any (fun p => p.1 = nm) = true := by
        simp only [List.any_cons, Bool.or_eq_true, decide_eq_true_eq] at h
        cases h with
        | inl hx => exact absurd hx hb
        | inr hx => exact hx
      have hr := ih hrest
      simp only [List.map_cons, if_neg hb, lookupBlob] at hr ⊢
      rw [List.find?_cons_of_neg _ (by simp [hb])]
      exact hr

theorem lookupAppendNew (blobs : List (String × Ct)) (nm : String) (ct : Ct)
    (h : lookupBlob blobs nm = none) :
    lookupBlob (blobs ++ [(nm, ct)]) nm = some ct := by
  induction blobs with
  | nil =>
    simp only [List.nil_append, lookupBlob]
    rw [List.find?_cons_of_pos _ (by simp)]
    rfl
  | cons b rest ih =>
    by_cases hb : b.1 = nm
    · rw [lookupBlob, List.find?_cons_of_pos _ (by simp [hb])] at h
      simp at h
    · rw [lookupBlob, List.find?_cons_of_neg _ (by simp [hb])] at h
      simp only [List.cons_append, lookupBlob]
      rw [List.find?_cons_of_neg _ (by simp [hb])]
      exact ih h

theorem lookupBlob_none_of_not_any {blobs : List (String × Ct)} {nm : String}
    (hany : ¬ blobs.any (fun p => p.1 = nm) = true) :
    lookupBlob blobs nm = none := by
  induction blobs with
  | nil => rfl
  | cons b rest ih =>
    simp only [List.any_cons, Bool.or_eq_true, decide_eq_true_eq] at hany
    push_neg at hany
    rw [lookupBlob, List.find?_cons_of_neg _ (by simp [hany.1])]
    exact ih (by simp [hany.2])

theorem lookupBlob_writeBlob_same (blobs : List (String × Ct)) (nm : String)
    (ct : Ct) : lookupBlob (writeBlob blobs nm ct) nm = some ct := by
  unfold writeBlob
  by_cases hany : blobs.any (fun p => p.1 = nm) = true
  · simp only [hany, if_true]
    exact lookupReplaceAll blobs nm ct hany
  · simp only [hany, if_false, Bool.false_eq_true]
    exact lookupAppendNew blobs nm ct (lookupBlob_none_of_not_any hany)

theorem lookupReplaceOther (blobs : List (String × Ct)) (nm : String)
    (ct : Ct) (nm' : String) (h : nm' ≠ nm) :
    lookupBlob (blobs.map (fun p => if p.1 = nm then (nm, ct) else p)) nm' =
      lookupBlob blobs nm' := by
  induction blobs with
  | nil => rfl
  | cons b rest ih =>
    by_cases hb : b.1 = nm
    · have hbn : ¬ b.1 = nm' := by rw [hb]; exact fun hx => h hx.symm
      simp only [List.map_cons, if_pos hb, lookupBlob] at ih ⊢
      rw [List.find?_cons_of_neg _ (by simp; exact fun hx => h hx.symm),
        List.find?_cons_of_neg _ (by simp [hbn])]
      exact ih
    · by_cases hb' : b.1 = nm'
      · simp only [List.map_cons, if_neg hb, lookupBlob]
        rw [List.find?_cons_of_pos _ (by simp [hb']),
          List.find?_cons_of_pos _ (by simp [hb'])]
      · simp only [List.map_cons, if_neg hb, lookupBlob] at ih ⊢
        rw [List.find?_cons_of_neg _ (by simp [hb']),
          List.find?_cons_of_neg _ (by simp [hb'])]
        exact ih

theorem lookupAppendOther (blobs : List (String × Ct)) (nm : String)
    (ct : Ct) (nm' : String) (h : nm' ≠ nm) :
    lookupBlob (blobs ++ [(nm, ct)]) nm' = lookupBlob blobs nm' := by
  induction blobs with
  | nil =>
    simp only [List.nil_append, lookupBlob]
    rw [List.find?_cons_of_neg _ (by simp; exact fun hx => h hx.symm)]
  | cons b rest ih =>
    by_cases hb' : b.1 = nm'
    · simp only [List.cons_append, lookupBlob]
      rw [List.find?_cons_of_pos _ (by simp [hb']),
        List.find?_cons_of_pos _ (by simp [hb'])]
    · simp only [List.cons_append, lookupBlob] at ih ⊢
      rw [List.find?_cons_of_neg _ (by simp [hb']),
        List.find?_cons_of_neg _ (by simp [hb'])]
      exact ih

theorem lookupBlob_writeBlob_other (blobs : List (String × Ct)) (nm : String)
    (ct : Ct) (nm' : String) (h : nm' ≠ nm) :
    lookupBlob (writeBlob blobs nm ct) nm' = lookupBlob blobs nm' := by
  unfold writeBlob
  by_cases hany : blobs.any (fun p => p.1 = nm) = true
  · simp only [hany, if_true]
    exact lookupReplaceOther blobs nm ct nm' h
  · simp only [hany, if_false, Bool.false_eq_true]
    exact lookupAppendOther blobs nm ct nm' h

theorem mem_pathsOf {items : List VaultItem} {it : VaultItem}
    (hm : it ∈ items) (hne : it.data_path ≠ "") :
    it.data_path ∈ pathsOf items := by
  simp only [pathsOf, List.mem_filterMap]
  exact ⟨it, hm, by simp [hne]⟩

theorem pathsOf_cons_empty {it : VaultItem} {rest : List VaultItem}
    (h : it.data_path = "") : pathsOf (it :: rest) = pathsOf rest := by
  simp [pathsOf, List.filterMap_cons, h]

theorem pathsOf_cons_ne {it : VaultItem} {rest : List VaultItem}
    (h : it.data_path ≠ "") :
    pathsOf (it :: rest) = it.data_path :: pathsOf rest := by
  simp [pathsOf, List.filterMap_cons, h]

theorem reencLoop_spec (dk newK : DKey) (items : List VaultItem) :
    ∀ (done todo : List Row) (blobs : List (String × Ct))
      (rng : List (List Nat)),
    decodeRows (some dk) todo = .ok items →
    ((done ++ todo).map Row.id).Nodup →
    (∀ it ∈ items, it.data_path ≠ "" →
      ∃ ct, lookupBlob blobs it.data_path = some ct ∧ ct.key = dk) →
    (pathsOf items).Nodup →
    ∃ todo' blobs' rng',
      reencLoop dk newK items (done ++ todo) blobs rng =
        (.ok (), done ++ todo', blobs', rng') ∧
      todo'.map Row.id = todo.map Row.id ∧
      decodeRows (some newK) todo' = .ok items ∧
      (∀ nm, nm ∉ pathsOf items →
        lookupBlob blobs' nm = lookupBlob blobs nm) ∧
      (∀ it ∈ items, it.data_path ≠ "" →
        ∃ n ct, lookupBlob blobs it.data_path = some ct ∧
          lookupBlob blobs' it.data_path = some ⟨newK, n, ct.plain⟩) := by
  induction items with
  | nil =>
    intro done todo blobs rng hdec hids hblob hpaths
    obtain rfl := decodeRows_nil_of_ok_nil hdec
    exact ⟨[], blobs, rng, by simp [reencLoop], rfl, rfl,
      fun nm _ => rfl, by simp⟩
  | cons it rest ih =>
    intro done todo blobs rng hdec hids hblob hpaths
    obtain ⟨r0, todoRest, rfl, hr0, hrest⟩ := decodeRows_cons_inv hdec
    obtain ⟨hid0, hpid0⟩ := rowToItem_ids hr0
    rcases List.nodup_append.1 (by rwa [List.map_append] at hids) with
      ⟨hd1, hd2, hdisj⟩
    rw [List.map_cons, List.nodup_cons] at hd2
    have hdone_ne : ∀ r ∈ done, r.id ≠ it.id := by
      intro r hr hcontra
      have hmem : r.id ∈ done.map Row.id := List.mem_map_of_mem _ hr
      have := hdisj hmem
      rw [hcontra, hid0] at this
      exact this (by simp)
    have hrest_ne : ∀ r ∈ todoRest, r.id ≠ it.id := by
      intro r hr hcontra
      refine hd2.1 ?_
      rw [← hid0, ← hcontra]
      exact List.mem_map_of_mem _ hr
    have hupd : ∀ f, updateRowsById (done ++ r0 :: todoRest) it.id f =
        (done ++ [applyFields r0 f]) ++ todoRest := by
      intro f
      rw [updateRowsById_append, updateRowsById_not_mem hdone_ne]
      have hcons : updateRowsById (r0 :: todoRest) it.id f =
          applyFields r0 f :: todoRest := by
        simp only [updateRowsById, List.map_cons, if_pos hid0.symm]
        rw [show List.map
            (fun r => if r.id = it.id then applyFields r f else r) todoRest =
          updateRowsById todoRest it.id f from rfl,
          updateRowsById_not_mem hrest_ne]
      rw [hcons, List.append_assoc, List.singleton_append]
    have hids2 : ∀ f, (((done ++ [applyFields r0 f]) ++ todoRest).map
        Row.id).Nodup := by
      intro f
      have : ((done ++ [applyFields r0 f]) ++ todoRest).map Row.id =
          (done ++ r0 :: todoRest).map Row.id := by
        simp [List.map_append, applyFields_id, List.append_assoc]
      rw [this]
      exact hids
    have hhead : ∀ rng0, rowToItem (some newK)
        (applyFields r0 (encodeFields newK it rng0).1) = .ok it := by
      intro rng0
      rw [rowToItem_applyFields, ← hid0, ← hpid0]
    by_cases hpath : it.data_path = ""
    · -- no payload: the blob directory is untouched for this item
      have hpr : pathsOf (it :: rest) = pathsOf rest := pathsOf_cons_empty hpath
      obtain ⟨todo'', blobs', rng', heq, hmap, hdec'', hother, hblobs''⟩ :=
        ih (done ++ [applyFields r0 (encodeFields newK it rng).1]) todoRest
          blobs (encodeFields newK it rng).2 hrest (hids2 _)
          (fun it' hit' hp => hblob it' (by simp [hit']) hp)
          (by rwa [hpr] at hpaths)
      refine ⟨applyFields r0 (encodeFields newK it rng).1 :: todo'', blobs',
        rng', ?_, ?_, ?_, ?_, ?_⟩
      · simp only [reencLoop, if_pos hpath, hupd]
        rw [heq, List.append_assoc, List.singleton_append]
      · simp [applyFields_id, hid0, hmap]
      · exact decodeRows_cons_ok (hhead rng) hdec''
      · intro nm hnm
        exact hother nm (by rwa [hpr] at hnm)
      · intro it' hit' hp
        cases List.mem_cons.1 hit' with
        | inl hx => exact absurd (hx ▸ hp) (by simp [hpath])
        | inr hx => exact hblobs'' it' hx hp
    · -- payload present: read under the old key, rewrite under the new
      obtain ⟨ct0, hlk0, hkey0⟩ := hblob it (by simp) hpath
      have hpr : pathsOf (it :: rest) = it.data_path :: pathsOf rest :=
        pathsOf_cons_ne hpath
      rw [hpr, List.nodup_cons] at hpaths
      have hblob1 : ∀ it' ∈ rest, it'.data_path ≠ "" →
          ∃ ct, lookupBlob (writeBlob blobs it.data_path
            ⟨newK, (draw (encodeFields newK it rng).2).1, ct0.plain⟩)
              it'.data_path = some ct ∧ ct.key = dk := by
        intro it' hit' hp
        have hne' : it'.data_path ≠ it.data_path := by
          intro hcontra
          exact hpaths.1 (hcontra ▸ mem_pathsOf hit' hp)
        rw [lookupBlob_writeBlob_other _ _ _ _ hne']
        exact hblob it' (by simp [hit']) hp
      obtain ⟨todo'', blobs', rng', heq, hmap, hdec'', hother, hblobs''⟩ :=
        ih (done ++ [applyFields r0 (encodeFields newK it rng).1]) todoRest
          (writeBlob blobs it.data_path
            ⟨newK, (draw (encodeFields newK it rng).2).1, ct0.plain⟩)
          (draw (encodeFields newK it rng).2).2 hrest (hids2 _) hblob1
          hpaths.2
      refine ⟨applyFields r0 (encodeFields newK it rng).1 :: todo'', blobs',
        rng', ?_, ?_, ?_, ?_, ?_⟩
      · simp only [reencLoop, if_neg hpath, hupd, hlk0, cryptoDecrypt,
          if_pos hkey0]
        rw [heq, List.append_assoc, List.singleton_append]
      · simp [applyFields_id, hid0, hmap]
      · exact decodeRows_cons_ok (hhead rng) hdec''
      · intro nm hnm
        rw [hpr] at hnm
        have hnm1 : nm ≠ it.data_path := fun hx => hnm (by simp [hx])
        have hnm2 : nm ∉ pathsOf rest := fun hx => hnm (by simp [hx])
        rw [hother nm hnm2, lookupBlob_writeBlob_other _ _ _ _ hnm1]
      · intro it' hit' hp
        cases List.mem_cons.1 hit' with
        | inl hx =>
          refine ⟨(draw (encodeFields newK it rng).2).1, ct0, ?_, ?_⟩
          · rw [hx]; exact hlk0
          · rw [hx, hother it.data_path hpaths.1]
            exact lookupBlob_writeBlob_same _ _ _
        | inr hx =>
          obtain ⟨n, ct', hlk', hlk''⟩ := hblobs'' it' hx hp
          have hne' : it'.data_path ≠ it.data_path := by
            intro hcontra
            exact hpaths.1 (hcontra ▸ mem_pathsOf hx hp)
          rw [lookupBlob_writeBlob_other _ _ _ _ hne'] at hlk'
          exact ⟨n, ct', hlk', hlk''⟩

/-- C2, counterexample.  The claim's quantification includes p2 = p1, and
there it fails: rotating the fixture vault from password `pw` to the same
`pw` succeeds, and `unlock(p1)` afterwards succeeds instead of failing
with `InvalidMasterKey` (the new verification token is encrypted under a
key derived from the same password). -/
theorem c2_same_password_counterexample :
    (updateMasterKey ("pw") ("pw") none exTagSt).1 = .ok () ∧
      (unlockVault ("pw") (updateMasterKey ("pw") ("pw") none exTagSt).2).1 =
        .ok () := by
  exact ⟨by decide, by decide⟩

/-- C2, amended: the claim restricted to distinct passwords p1 ≠ p2 (the
only change the counterexample forces).  On a well-formed initialized
vault whose current password is p1 — the verification token and every row
decrypt under the derived key, every non-folder item's payload file
exists and is encrypted under it, ids and payload names are duplicate-free
— `update_master_key(p1, p2, optional strength)` succeeds, and afterwards
`unlock(p2)` succeeds, `unlock(p1)` fails with `InvalidMasterKey`, every
item decodes to exactly the same plaintext metadata under the new live
cipher, and every payload decrypts to the same bytes as before. -/
theorem c2_rotation_amended (st : VaultSt) (p1 p2 : String)
    (os : Option Strength) (salt : Nat) (vt : Ct) (items : List VaultItem)
    (hsalt : st.saltFile = some salt)
    (hver : st.verifyFile = some vt)
    (hkey : vt.key = ⟨p1, salt, getStrengthMeta st⟩)
    (hdec : decodeRows (some ⟨p1, salt, getStrengthMeta st⟩) st.rows =
      .ok items)
    (hids : (st.rows.map Row.id).Nodup)
    (hblob : ∀ it ∈ items, it.data_path ≠ "" →
      (lookupBlob st.blobs it.data_path).map Ct.key =
        some ⟨p1, salt, getStrengthMeta st⟩)
    (hpaths : (pathsOf items).Nodup)
    (hne : p1 ≠ p2) :
    ∃ st', updateMasterKey p1 p2 os st = (.ok (), st') ∧
      (unlockVault p2 st').1 = .ok () ∧
      (unlockVault p1 st').1 = .error .invalidMasterKey ∧
      decodeRows st'.cipher st'.rows = .ok items ∧
      ∀ it ∈ items, it.data_path ≠ "" →
        ∃ p, readEncryptedFile st'.blobs it.data_path st'.cipher = .ok p ∧
          readEncryptedFile st.blobs it.data_path
            (some ⟨p1, salt, getStrengthMeta st⟩) = .ok p := by
  have hblob' : ∀ it ∈ items, it.data_path ≠ "" →
      ∃ ct, lookupBlob st.blobs it.data_path = some ct ∧
        ct.key = ⟨p1, salt, getStrengthMeta st⟩ := by
    intro it hit hp
    have := hblob it hit hp
    cases hlk : lookupBlob st.blobs it.data_path with
    | none => rw [hlk] at this; simp at this
    | some ct =>
      rw [hlk] at this
      exact ⟨ct, rfl, by simpa using this⟩
  obtain ⟨todo', blobs', rng', heq, hmap, hdec', hother, hblobs'⟩ :=
    reencLoop_spec ⟨p1, salt, getStrengthMeta st⟩
      ⟨p2, st.fresh, os.getD (getStrengthMeta st)⟩ items [] st.rows st.blobs
      st.rng hdec (by simpa using hids) hblob' hpaths
  have hrun : updateMasterKey p1 p2 os st =
      (.ok (), ⟨some st.fresh,
        some ⟨⟨p2, st.fresh, os.getD (getStrengthMeta st)⟩, (draw rng').1,
          vt.plain⟩,
        some (os.getD (getStrengthMeta st)), todo', blobs',
        some ⟨p2, st.fresh, os.getD (getStrengthMeta st)⟩, (draw rng').2,
        st.fresh + 1, st.clock⟩) := by
    simp only [updateMasterKey, hsalt, hver]
    rw [if_neg (by simp [hkey])]
    simp only [genSalt, hdec]
    rw [show reencLoop ⟨p1, salt, getStrengthMeta st⟩
        ⟨p2, st.fresh, os.getD (getStrengthMeta st)⟩ items st.rows st.blobs
        st.rng = (.ok (), todo', blobs', rng') from by simpa using heq]
    simp [cryptoDecrypt, hkey]
  refine ⟨_, hrun, ?_, ?_, ?_, ?_⟩
  · simp [unlockVault, getStrengthMeta]
  · simp only [unlockVault, getStrengthMeta, Option.getD_some]
    rw [if_neg (by simp [Ne.symm hne])]
  · exact hdec'
  · intro it hit hp
    obtain ⟨n, ct, hlk, hlk'⟩ := hblobs' it hit hp
    obtain ⟨ct0, hlk0, hk0⟩ := hblob' it hit hp
    refine ⟨ct.plain, ?_, ?_⟩
    · simp only [readEncryptedFile, hlk', cryptoDecrypt]
      simp
    · rw [hlk0] at hlk
      injection hlk with hlk
      subst hlk
      simp [readEncryptedFile, hlk0, cryptoDecrypt, hk0]

/-- C2, witness: rotating the fixture vault (a text item with payload and
a folder) from `pw` to `new` at `Paranoid` strength satisfies every
hypothesis of the amended theorem; afterwards `unlock(new)` succeeds,
`unlock(pw)` fails, and items and payloads are unchanged. -/
theorem c2_rotation_amended_witness :
    ∃ st', updateMasterKey ("pw") ("new") (some .paranoid) exListSt =
        (.ok (), st') ∧
      (unlockVault ("new") st').1 = .ok () ∧
      (unlockVault ("pw") st').1 = .error .invalidMasterKey ∧
      decodeRows st'.cipher st'.rows = .ok [exTextItem, exFolderItem] ∧
      ∀ it ∈ [exTextItem, exFolderItem], it.data_path ≠ "" →
        ∃ p, readEncryptedFile st'.blobs it.data_path st'.cipher = .ok p ∧
          readEncryptedFile exListSt.blobs it.data_path
            (some ⟨("pw"), 0, getStrengthMeta exListSt⟩) = .ok p :=
  c2_rotation_amended exListSt ("pw") ("new") (some .paranoid) 0
    ⟨exKey, nonce12 2, .bytes [7]⟩ [exTextItem, exFolderItem]
    (by decide) (by decide) (by decide) (by decide) (by decide) (by decide)
    (by decide) (by decide)

theorem childIds_mem_edge {rows : List Row} {cur c : String}
    (h : c ∈ childIds rows cur) :
    ∃ r ∈ rows, r.id = c ∧ r.parent_id = some cur := by
  simp only [childIds, List.mem_map, List.mem_filter,
    decide_eq_true_eq] at h
  obtain ⟨r, ⟨hr, hp⟩, hid⟩ := h
  exact ⟨r, hr, hid, hp⟩

theorem edge_mem_childIds {rows : List Row} {cur c : String}
    (h : ∃ r ∈ rows, r.id = c ∧ r.parent_id = some cur) :
    c ∈ childIds rows cur := by
  obtain ⟨r, hr, hid, hp⟩ := h
  simp only [childIds, List.mem_map, List.mem_filter, decide_eq_true_eq]
  exact ⟨r, ⟨hr, hp⟩, hid⟩

theorem Desc_cons_inv {rows : List Row} {x d : String}
    (h : Desc rows x d) :
    x = d ∨ ∃ c, (∃ r ∈ rows, r.id = c ∧ r.parent_id = some x) ∧
      Desc rows c d := by
  induction h with
  | refl => exact Or.inl rfl
  | step hp e ih =>
    rename_i p c
    cases ih with
    | inl hx => exact Or.inr ⟨c, hx ▸ e, Desc.refl⟩
    | inr hx =>
      obtain ⟨c', e', hd⟩ := hx
      exact Or.inr ⟨c', e', Desc.step hd e⟩

theorem Desc_front {rows : List Row} {p c d : String}
    (e : ∃ r ∈ rows, r.id = c ∧ r.parent_id = some p)
    (h : Desc rows c d) : Desc rows p d := by
  induction h with
  | refl => exact Desc.step Desc.refl e
  | step _ e' ih => exact Desc.step ih e'

theorem sumMapLe {α : Type} (l : List α) (f : α → Nat) (n : Nat)
    (h : ∀ x ∈ l, f x ≤ n) : (l.map f).sum ≤ l.length * n := by
  induction l with
  | nil => simp
  | cons a rest ih =>
    have ha := h a (by simp)
    have hrest := ih (fun x hx => h x (by simp [hx]))
    simp only [List.map_cons, List.sum_cons, List.length_cons]
    have : (rest.length + 1) * n = rest.length * n + n := by ring
    omega

theorem collectGo_sound (rows : List Row) :
    ∀ (fuel : Nat) (queue acc : List String) (d : String),
    d ∈ collectGo rows fuel queue acc →
    d ∈ acc ∨ ∃ x ∈ queue, Desc rows x d := by
  intro fuel
  induction fuel with
  | zero => intro queue acc d h; exact Or.inl h
  | succ fuel ih =>
    intro queue acc d h
    cases queue with
    | nil => exact Or.inl h
    | cons cur rest =>
      rw [show collectGo rows (fuel + 1) (cur :: rest) acc =
          collectGo rows fuel ((childIds rows cur).reverse ++ rest)
            (acc ++ [cur]) from rfl] at h
      cases ih _ _ _ h with
      | inl hx =>
        cases List.mem_append.1 hx with
        | inl hy => exact Or.inl hy
        | inr hy =>
          exact Or.inr ⟨cur, by simp, by
            rw [show d = cur from by simpa using hy]; exact Desc.refl⟩
      | inr hx =>
        obtain ⟨x, hxq, hxd⟩ := hx
        cases List.mem_append.1 hxq with
        | inl hy =>
          have hchild := childIds_mem_edge (List.mem_reverse.1 hy)
          exact Or.inr ⟨cur, by simp, Desc_front hchild hxd⟩
        | inr hy => exact Or.inr ⟨x, by simp [hy], hxd⟩

theorem collectGo_complete (rows : List Row) (rank : String → Nat)
    (hrank : ∀ r ∈ rows, ∀ p, r.parent_id = some p → rank p < rank r.id)
    (hrankle : ∀ r ∈ rows, rank r.id ≤ rows.length) :
    ∀ (fuel : Nat) (queue acc : List String),
    (∀ x ∈ queue, rank x ≤ rows.length) →
    (queue.map (fun x =>
      (rows.length + 1) ^ (rows.length - rank x))).sum < fuel →
    ∀ d, (d ∈ acc ∨ ∃ x ∈ queue, Desc rows x d) →
    d ∈ collectGo rows fuel queue acc := by
  intro fuel
  induction fuel with
  | zero => intro queue acc _ hmu; omega
  | succ fuel ih =>
    intro queue acc hq hmu d hd
    cases queue with
    | nil =>
      cases hd with
      | inl hx => exact hx
      | inr hx => simp at hx
    | cons cur rest =>
      rw [show collectGo rows (fuel + 1) (cur :: rest) acc =
          collectGo rows fuel ((childIds rows cur).reverse ++ rest)
            (acc ++ [cur]) from rfl]
      have hqcur := hq cur (by simp)
      have hq' : ∀ x ∈ (childIds rows cur).reverse ++ rest,
          rank x ≤ rows.length := by
        intro x hx
        cases List.mem_append.1 hx with
        | inl hy =>
          obtain ⟨r, hr, hid, _⟩ := childIds_mem_edge (List.mem_reverse.1 hy)
          exact hid ▸ hrankle r hr
        | inr hy => exact hq x (by simp [hy])
      have hchildlen : (childIds rows cur).length ≤ rows.length := by
        calc (childIds rows cur).length
            = (rows.filter (fun r => r.parent_id = some cur)).length := by
              simp [childIds]
          _ ≤ rows.length := List.length_filter_le _ _
      have hchildbound : (((childIds rows cur).reverse).map (fun x =>
          (rows.length + 1) ^ (rows.length - rank x))).sum <
            (rows.length + 1) ^ (rows.length - rank cur) := by
        by_cases hcl : rank cur < rows.length
        · have hxle : ∀ x ∈ (childIds rows cur).reverse,
              (rows.length + 1) ^ (rows.length - rank x) ≤
                (rows.length + 1) ^ (rows.length - rank cur - 1) := by
            intro x hx
            obtain ⟨r, hr, hid, hp⟩ := childIds_mem_edge (List.mem_reverse.1 hx)
            have h1 : rank cur < rank x := hid ▸ hrank r hr cur hp
            refine Nat.pow_le_pow_right (by omega) (by omega)
          have hsum := sumMapLe ((childIds rows cur).reverse) _
            ((rows.length + 1) ^ (rows.length - rank cur - 1)) hxle
          have hlen : ((childIds rows cur).reverse).length ≤ rows.length := by
            simpa using hchildlen
          have hp1 : 0 < (rows.length + 1) ^ (rows.length - rank cur - 1) :=
            Nat.pow_pos (by omega)
          have hmul : rows.length *
              (rows.length + 1) ^ (rows.length - rank cur - 1) <
              (rows.length + 1) *
              (rows.length + 1) ^ (rows.length - rank cur - 1) :=
            Nat.mul_lt_mul_of_lt_of_le (by omega) (le_refl _) hp1
          have hpow : (rows.length + 1) *
              (rows.length + 1) ^ (rows.length - rank cur - 1) =
              (rows.length + 1) ^ (rows.length - rank cur) := by
            rw [← pow_succ']
            congr 1
            omega
          have hmono : ((childIds rows cur).reverse).length *
              (rows.length + 1) ^ (rows.length - rank cur - 1) ≤
              rows.length *
              (rows.length + 1) ^ (rows.length - rank cur - 1) :=
            Nat.mul_le_mul_right _ hlen
          omega
        · have hnil : childIds rows cur = [] := by
            rw [childIds, List.filter_eq_nil_iff.2, List.map_nil]
            intro r hr
            simp only [decide_eq_true_eq]
            intro hp
            have h1 := hrank r hr cur hp
            have h2 := hrankle r hr
            omega
          rw [hnil]
          simp only [List.reverse_nil, List.map_nil, List.sum_nil]
          exact Nat.pow_pos (by omega)
      have hmu' : (((childIds rows cur).reverse ++ rest).map (fun x =>
          (rows.length + 1) ^ (rows.length - rank x))).sum < fuel := by
        rw [List.map_append, List.sum_append]
        simp only [List.map_cons, List.sum_cons] at hmu
        omega
      refine ih _ _ hq' hmu' d ?_
      cases hd with
      | inl hx => exact Or.inl (by simp [hx])
      | inr hx =>
        obtain ⟨x, hxq, hxd⟩ := hx
        cases List.mem_cons.1 hxq with
        | inl hy =>
          subst hy
          cases Desc_cons_inv hxd with
          | inl hz => exact Or.inl (by simp [hz])
          | inr hz =>
            obtain ⟨c, e, hcd⟩ := hz
            exact Or.inr ⟨c, List.mem_append.2 (Or.inl
              (List.mem_reverse.2 (edge_mem_childIds e))), hcd⟩
        | inr hy => exact Or.inr ⟨x, List.mem_append.2 (Or.inr hy), hxd⟩

theorem collectIds_complete {rows : List Row} (rank : String → Nat)
    (hrank : ∀ r ∈ rows, ∀ p, r.parent_id = some p → rank p < rank r.id)
    (hrankle : ∀ r ∈ rows, rank r.id ≤ rows.length) (rootId : String)
    (hroot : rank rootId ≤ rows.length) :
    ∀ d, Desc rows rootId d → d ∈ collectIds rows rootId := by
  intro d hd
  refine collectGo_complete rows rank hrank hrankle (collectFuel rows)
    [rootId] [] (by intro x hx; simpa [List.mem_singleton.1 hx] using hroot)
    ?_ d (Or.inr ⟨rootId, by simp, hd⟩)
  simp only [List.map_cons, List.map_nil, List.sum_cons, List.sum_nil,
    Nat.add_zero, collectFuel]
  have h1 : (rows.length + 1) ^ (rows.length - rank rootId) ≤
      (rows.length + 1) ^ (rows.length + 1) :=
    Nat.pow_le_pow_right (by omega) (by omega)
  omega

theorem collectIds_sound {rows : List Row} {rootId d : String}
    (h : d ∈ collectIds rows rootId) : Desc rows rootId d := by
  cases collectGo_sound rows (collectFuel rows) [rootId] [] d h with
  | inl hx => simp at hx
  | inr hx =>
    obtain ⟨x, hxq, hxd⟩ := hx
    rwa [← List.mem_singleton.1 hxq]

/-- C5.  On an unlocked vault whose `parent_id` links are acyclic (written
as a rank function that strictly increases from parent to child, bounded
by the table size), `delete_item(id)` succeeds with `Ok(true)`; the
collection loop gathers exactly `id` and its transitive descendants; all
their catalogue rows are removed (and only theirs); afterwards a
`get_item` read of any descendant returns nothing, and for every deleted
row that decodes to an item with a payload, the payload file is gone from
`data/` — the deletion modelled after the commit that precedes shredding. -/
theorem c5_recursive_delete (st : VaultSt) (id : String) (k : DKey)
    (rank : String → Nat) (hc : st.cipher = some k)
    (hrank : ∀ r ∈ st.rows, ∀ p, r.parent_id = some p → rank p < rank r.id)
    (hrankle : ∀ r ∈ st.rows, rank r.id ≤ st.rows.length)
    (hroot : rank id ≤ st.rows.length) :
    (deleteItem id st).1 = .ok true ∧
      (∀ d, Desc st.rows id d →
        getItem d (some k) (deleteItem id st).2.rows = .ok none) ∧
      (∀ r ∈ st.rows, ¬ Desc st.rows id r.id →
        r ∈ (deleteItem id st).2.rows) ∧
      (∀ r ∈ (deleteItem id st).2.rows,
        r ∈ st.rows ∧ ¬ Desc st.rows id r.id) ∧
      (∀ r ∈ st.rows, Desc st.rows id r.id →
        ∀ it, rowToItem (some k) r = .ok it → it.data_path ≠ "" →
          lookupBlob (deleteItem id st).2.blobs it.data_path = none) := by
  have hdel : deleteItem id st =
      (.ok true, deleteItemAndDescendants id st.cipher st) := by
    simp [deleteItem, hc]
  have hcont : ∀ x, (collectIds st.rows id).contains x = true ↔
      Desc st.rows id x := by
    intro x
    rw [List.elem_iff]
    exact ⟨collectIds_sound, collectIds_complete rank hrank hrankle id hroot x⟩
  refine ⟨by rw [hdel], ?_, ?_, ?_, ?_⟩
  · intro d hd
    rw [hdel]
    simp only [deleteItemAndDescendants, getItem]
    have hfind : List.find? (fun r => decide (r.id = d))
        (st.rows.filter (fun r => ! (collectIds st.rows id).contains r.id)) =
          none := by
      rw [List.find?_eq_none]
      intro r hr
      simp only [decide_eq_true_eq]
      intro hcontra
      have hsurv := (List.mem_filter.1 hr).2
      have htrue := (hcont r.id).2 (hcontra ▸ hd)
      rw [htrue] at hsurv
      simp at hsurv
    rw [hfind]
  · intro r hr hnd
    rw [hdel]
    simp only [deleteItemAndDescendants]
    refine List.mem_filter.2 ⟨hr, ?_⟩
    cases hcase : (collectIds st.rows id).contains r.id with
    | false => rfl
    | true => exact absurd ((hcont r.id).1 hcase) hnd
  · intro r hr
    rw [hdel] at hr
    simp only [deleteItemAndDescendants] at hr
    have hm := List.mem_filter.1 hr
    refine ⟨hm.1, ?_⟩
    intro hd
    have h1 := hm.2
    rw [(hcont r.id).2 hd] at h1
    simp at h1
  · intro r hr hd it hdec hp
    rw [hdel]
    simp only [deleteItemAndDescendants]
    have hrid : (collectIds st.rows id).contains r.id = true :=
      (hcont r.id).2 hd
    have hpathmem : it.data_path ∈
        (((st.rows.filter (fun r => (collectIds st.rows id).contains r.id)
          ).filterMap (fun r => (rowToItem st.cipher r).toOption)).map
            (fun it => it.data_path)).filter (fun p => p ≠ "") := by
      refine List.mem_filter.2 ⟨?_, by simpa using hp⟩
      refine List.mem_map.2 ⟨it, ?_, rfl⟩
      refine List.mem_filterMap.2 ⟨r, List.mem_filter.2 ⟨hr, hrid⟩, ?_⟩
      rw [hc, hdec]
      rfl
    have hfind : List.find? (fun b => decide (b.1 = it.data_path))
        (st.blobs.filter (fun b =>
          ! ((((st.rows.filter (fun r =>
            (collectIds st.rows id).contains r.id)).filterMap
              (fun r => (rowToItem st.cipher r).toOption)).map
                (fun it => it.data_path)).filter
                  (fun p => p ≠ "")).contains b.1)) = none := by
      rw [List.find?_eq_none]
      intro b hb
      simp only [decide_eq_true_eq]
      intro hcontra
      have hsurv := (List.mem_filter.1 hb).2
      rw [show ((((st.rows.filter (fun r =>
          (collectIds st.rows id).contains r.id)).filterMap
            (fun r => (rowToItem st.cipher r).toOption)).map
              (fun it => it.data_path)).filter
                (fun p => p ≠ "")).contains b.1 = true from
        List.elem_iff.2 (hcontra ▸ hpathmem)] at hsurv
      simp at hsurv
    rw [lookupBlob, hfind]
    rfl

/-- C5, witness: deleting the fixture folder `idF` (which contains the
file `idT` with payload `tp`) removes both rows and the payload file. -/
theorem c5_recursive_delete_witness :
    (deleteItem ("idF") exDelSt).1 = .ok true ∧
      (∀ d, Desc exDelSt.rows ("idF") d →
        getItem d (some exKey) (deleteItem ("idF") exDelSt).2.rows =
          .ok none) ∧
      (∀ r ∈ exDelSt.rows, ¬ Desc exDelSt.rows ("idF") r.id →
        r ∈ (deleteItem ("idF") exDelSt).2.rows) ∧
      (∀ r ∈ (deleteItem ("idF") exDelSt).2.rows,
        r ∈ exDelSt.rows ∧ ¬ Desc exDelSt.rows ("idF") r.id) ∧
      (∀ r ∈ exDelSt.rows, Desc exDelSt.rows ("idF") r.id →
        ∀ it, rowToItem (some exKey) r = .ok it → it.data_path ≠ "" →
          lookupBlob (deleteItem ("idF") exDelSt).2.blobs it.data_path =
            none) :=
  c5_recursive_delete exDelSt ("idF") exKey
    (fun s => if s = ("idT") then 1 else 0) (by decide)
    (by
      intro r hr p hp
      simp only [exDelSt, List.mem_cons, List.not_mem_nil, or_false] at hr
      rcases hr with h | h
      · rw [h] at hp
        exact absurd hp (by simp [exDelRowF])
      · rw [h] at hp
        simp only [exDelRowT] at hp
        injection hp with hp
        rw [h, ← hp]
        decide)
    (by decide) (by decide)
